import Mathlib

/-!
Verification of the idempotent content-sync engine of an
Obsidian-to-Astro publishing plugin.

The development shallowly embeds the TypeScript core:
  * the Git blob digest computation (computeGitBlobSha),
  * the idempotent remote write (GitHubClient.createOrUpdateFile),
  * the retry / backoff request loop (GitHubClient.request),
  * the bounded concurrency limiter (ConcurrencyLimiter),
  * the asset extractor (processMarkdownAssets, sanitizeFilename),
  * the sync manifest (SyncManifestManager), and
  * the manifest registration step of Publisher.publishAll.

Platform primitives (crypto.subtle SHA-1, JSON.parse, atob,
decodeURIComponent, the Obsidian link resolver) are passed in as explicit
function arguments, mirroring their role as external collaborators.

The file is organised as definitions first, then the theorems.
-/

/-- JavaScript String.startsWith, stated over the character lists so that
concrete instances evaluate inside the kernel. -/
def strStartsWith (s pre : String) : Bool :=
  pre.data.isPrefixOf s.data

namespace GitBlob

/-- UTF-8 encoding of a single code point, as a list of byte values.
Mirrors the behavior of the platform TextEncoder on one character. -/
def utf8Char (n : Nat) : List Nat :=
  if n < 0x80 then [n]
  else if n < 0x800 then [0xC0 + n / 64, 0x80 + n % 64]
  else if n < 0x10000 then
    [0xE0 + n / 4096, 0x80 + (n / 64) % 64, 0x80 + n % 64]
  else
    [0xF0 + n / 262144, 0x80 + (n / 4096) % 64, 0x80 + (n / 64) % 64, 0x80 + n % 64]

/-- UTF-8 encoding of a string (TextEncoder.encode). -/
def utf8Str (s : String) : List Nat :=
  (s.data.map (fun c => utf8Char c.toNat)).flatten

/-- Content accepted by createOrUpdateFile and computeGitBlobSha:
either a text string or a binary buffer (a list of byte values). -/
inductive GitContent where
  | text (s : String)
  | binary (bytes : List Nat)
deriving DecidableEq

/-- The byte sequence a GitContent stands for: a string is UTF-8 encoded,
a buffer is taken as-is (source lines 75-82 of the client). -/
def encodeContent : GitContent → List Nat
  | .text s => utf8Str s
  | .binary bs => bs

/-- One lowercase hexadecimal digit (value below 16). -/
def hexChar (n : Nat) : Char :=
  if n < 10 then Char.ofNat (48 + n) else Char.ofNat (87 + n)

/-- Two lowercase hexadecimal digits of one byte value; the embedding of
the per-byte formatting b.toString(16).padStart(2, two zero-padded digits)
for byte values below 256. -/
def toHexByte (b : Nat) : List Char :=
  [hexChar (b / 16), hexChar (b % 16)]

/-- Lowercase hexadecimal rendering of a digest byte list. -/
def toHexString (bs : List Nat) : String :=
  String.mk ((bs.map toHexByte).flatten)

/-- Embedding of computeGitBlobSha (client source lines 74-94).
The SHA-1 compression itself is the platform crypto.subtle primitive and
is passed in as the function argument sha1. -/
def computeGitBlobSha (sha1 : List Nat → List Nat) (content : GitContent) : String :=
  let bytes := encodeContent content
  let header := utf8Str ("blob " ++ Nat.repr bytes.length ++ "\x00")
  let combined := header ++ bytes
  toHexString (sha1 combined)

/-- The canonical blob preimage: UTF-8 of "blob ", the decimal length,
one NUL byte, then the raw bytes. -/
def blobPreimage (bytes : List Nat) : List Nat :=
  utf8Str ("blob " ++ Nat.repr bytes.length) ++ [0] ++ bytes

/-- The lowercase hexadecimal digit characters. -/
def hexDigits : List Char :=
  "0123456789abcdef".data

end GitBlob

namespace GH

/-- Result of one file upload operation (client source lines 6-13). -/
structure UploadResult where
  uploaded : Bool
  sha : String
  path : String
deriving DecidableEq

/-- Remote-store metadata view: an association list from repository path
to the stored Git blob digest of the content currently at that path.
This is the per-path digest the contents API reports (spec section 6:
get-file-metadata-by-path returns a digest or not-found). -/
def RemoteState := List (String × String)

/-- Digest lookup for a path, first binding wins (the most recent PUT). -/
def storeGet (st : RemoteState) (p : String) : Option String :=
  match st with
  | [] => none
  | (q, v) :: rest => if q = p then some v else storeGet rest p

/-- A PUT of content whose blob digest is v at path p: the store now
reports v for p (the contents API computes and returns the blob digest of
the received bytes). -/
def storeSet (st : RemoteState) (p v : String) : RemoteState :=
  (p, v) :: st

/-- Embedding of GitHubClient.getFileSha (source lines 193-205): the
stored digest of the path, or none when the file is absent. -/
def getFileSha (st : RemoteState) (p : String) : Option String :=
  storeGet st p

/-- Embedding of GitHubClient.createOrUpdateFile (source lines 216-282).
Returns the UploadResult, the remote store after the call, and whether a
data transfer (a PUT of the content) was performed. -/
def createOrUpdateFile (sha1 : List Nat → List Nat) (st : RemoteState)
    (path : String) (content : GitBlob.GitContent) :
    UploadResult × RemoteState × Bool :=
  let existingSha := getFileSha st path
  let localSha := GitBlob.computeGitBlobSha sha1 content
  match existingSha with
  | some s =>
    if s = localSha then
      (⟨false, s, path⟩, st, false)
    else
      (⟨true, localSha, path⟩, storeSet st path localSha, true)
  | none =>
    (⟨true, localSha, path⟩, storeSet st path localSha, true)

/-- One HTTP response as seen through requestUrl with throw disabled:
status, the parsed retry-after header in seconds when present, the
response text, and an opaque body payload. -/
structure HttpResponse where
  status : Nat
  retryAfter : Option Nat
  text : String
  jsonData : Option String
deriving DecidableEq

/-- Outcome of one network attempt: a response, or a thrown transport
error. -/
inductive AttemptOutcome where
  | resp (r : HttpResponse)
  | exn (msg : String)
deriving DecidableEq

/-- Errors raised by request: the recorded API error (source line 174),
the recorded transport error (source line 176), or the generic fallback
Error raised when lastError is still null after the loop
(source line 183). -/
inductive GHError where
  | apiError (status : Nat) (text : String)
  | transportError (msg : String)
  | exhausted
deriving DecidableEq

/-- What a completed request call did: how many attempts were made, the
sleep durations in order, and the returned value or raised error. -/
structure ReqOutput where
  attempts : Nat
  sleeps : List Nat
  result : Except GHError (Nat × Option String)

/-- The wait time chosen on a rate-limited response (source line 164):
the retry-after hint in seconds times 1000 when present, else the
current backoff. -/
def waitOf (r : HttpResponse) (backoffMs : Nat) : Nat :=
  match r.retryAfter with
  | some h => h * 1000
  | none => backoffMs

/-- The retry loop of GitHubClient.request (source lines 130-183), with
the remaining attempt budget as the recursion fuel; attempt counts the
attempts already made, and outcomes gives the result of each attempt. A
2xx response returns; 404 returns a null-data result; 403 and 429 sleep
for the wait time capped at 30000 and double the backoff without
recording an error; another status records an API error and continues
without sleeping; a thrown transport error records it, sleeps for the
uncapped backoff and doubles it. When the budget is exhausted the last
recorded error is raised, or the generic exhausted error if none was
recorded. -/
def requestLoop (outcomes : Nat → AttemptOutcome) :
    Nat → Nat → Nat → Option GHError → List Nat → ReqOutput
  | 0, attempt, _, lastError, sleeps =>
    ⟨attempt, sleeps, .error (lastError.getD .exhausted)⟩
  | remaining + 1, attempt, backoffMs, lastError, sleeps =>
    match outcomes attempt with
    | .resp r =>
      if 200 ≤ r.status ∧ r.status < 300 then
        ⟨attempt + 1, sleeps, .ok (r.status, r.jsonData)⟩
      else if r.status = 404 then
        ⟨attempt + 1, sleeps, .ok (404, none)⟩
      else if r.status = 403 ∨ r.status = 429 then
        requestLoop outcomes remaining (attempt + 1) (backoffMs * 2) lastError
          (sleeps ++ [min (waitOf r backoffMs) 30000])
      else
        requestLoop outcomes remaining (attempt + 1) backoffMs
          (some (.apiError r.status r.text)) sleeps
    | .exn m =>
      requestLoop outcomes remaining (attempt + 1) (backoffMs * 2)
        (some (.transportError m)) (sleeps ++ [backoffMs])

/-- Embedding of GitHubClient.request (source lines 121-187): the loop
starts with zero attempts made, a 1000 ms backoff and no recorded
error; the default attempt budget is 3. -/
def request (outcomes : Nat → AttemptOutcome) (retries : Nat) : ReqOutput :=
  requestLoop outcomes retries 0 1000 none []

/-- Whether an attempt outcome is a rate-limited response
(status 403 or 429). -/
def isRateLimitResp : AttemptOutcome → Bool
  | .resp r => r.status == 403 || r.status == 429
  | .exn _ => false

/-- The sleep performed after a rate-limited response given the current
backoff. -/
def rlWait (o : AttemptOutcome) (backoffMs : Nat) : Nat :=
  match o with
  | .resp r => min (waitOf r backoffMs) 30000
  | .exn _ => backoffMs

/-- Removal of every newline, the replace step of getFileContent
(source line 350). -/
def stripNewlines (s : String) : String :=
  String.mk (s.data.filter (fun c => c ≠ '\n'))

/-- The content and encoding fields of the contents-API response body. -/
structure FileData where
  content : String
  encoding : String
deriving DecidableEq

/-- Embedding of GitHubClient.getFileContent (source lines 336-357) on a
completed request result: decodeB64 models atob followed by UTF-8
decoding. -/
def getFileContent (decodeB64 : String → String) (status : Nat)
    (data : Option FileData) : Option String :=
  if status = 404 then none
  else
    match data with
    | none => none
    | some d =>
      if d.encoding = "base64" then some (decodeB64 (stripNewlines d.content))
      else none

end GH

/-- A remote store that answers every attempt with a rate-limited
response carrying no retry-after hint. -/
def allRateLimited : Nat → GH.AttemptOutcome :=
  fun _ => .resp ⟨429, none, "rate limited", none⟩

/-- A concrete stand-in for the platform SHA-1 primitive, used to
instantiate witnesses. -/
def sha1Demo : List Nat → List Nat := fun _ => List.range 20

/-- A concrete remote store already holding, at path p, a file whose
stored digest is the blob digest of the text x. -/
def demoStore : GH.RemoteState :=
  [("p", GitBlob.computeGitBlobSha sha1Demo (.text "x"))]

namespace Manifest

/-- A published post in the manifest (sync-manifest source lines 6-15). -/
structure ManifestPost where
  vaultPath : String
  repoPath : String
  assets : List String
  contentSha : String
deriving DecidableEq

/-- One entry of pathsToDelete: a repository path together with the
placeholder digest (filled in just before deletion). -/
structure PathSha where
  path : String
  sha : String
deriving DecidableEq

/-- Result of computing sync operations (source lines 49-54). -/
structure SyncOperations where
  pathsToDelete : List PathSha
  removedSlugs : List String
deriving DecidableEq

/-- The publish manifest (source lines 21-28); posts are modelled as an
association list in object-insertion order. -/
structure PublishManifest where
  version : Nat
  lastPublish : String
  posts : List (String × ManifestPost)
deriving DecidableEq

/-- The loop body of computeDeleteOperations over the old manifest
entries (source lines 133-151): newKeys are the slugs of the new
manifest; a slug absent from newKeys is recorded as removed, its
document path is scheduled when inside the content directory, and each
recorded asset path is scheduled when inside the content directory. -/
def deleteLoop (newKeys : List String) (dir : String) :
    List (String × ManifestPost) → SyncOperations
  | [] => ⟨[], []⟩
  | (slug, oldPost) :: rest =>
    let tail := deleteLoop newKeys dir rest
    if newKeys.contains slug then tail
    else
      ⟨(if strStartsWith oldPost.repoPath dir then [⟨oldPost.repoPath, ""⟩] else [])
         ++ (oldPost.assets.filter (fun a => strStartsWith a dir)).map (fun a => ⟨a, ""⟩)
         ++ tail.pathsToDelete,
       slug :: tail.removedSlugs⟩

/-- Embedding of SyncManifestManager.computeDeleteOperations
(source lines 124-154). -/
def computeDeleteOperations (current : Option PublishManifest)
    (newPosts : List (String × ManifestPost)) (dir : String) : SyncOperations :=
  match current with
  | none => ⟨[], []⟩
  | some cur => deleteLoop (newPosts.map Prod.fst) dir cur.posts

/-- JSON values, the possible results of the platform JSON.parse. -/
inductive Json where
  | null
  | bool (b : Bool)
  | num (n : Int)
  | str (s : String)
  | arr (elems : List Json)
  | obj (fields : List (String × Json))

/-- First binding of a key in a JSON object field list. -/
def jlookup : List (String × Json) → String → Option Json
  | [], _ => none
  | (k, v) :: rest, key => if k = key then some v else jlookup rest key

/-- JavaScript property access: a field of an object, undefined (none)
otherwise. -/
def jget (j : Json) (key : String) : Option Json :=
  match j with
  | .obj fields => jlookup fields key
  | _ => none

/-- The check parsed.version === 1 of loadManifest. -/
def versionIsOne : Option Json → Bool
  | some (.num n) => n == 1
  | _ => false

/-- The check typeof parsed.posts === "object" of loadManifest: in
JavaScript this is true for objects, arrays, and null. -/
def typeofIsObject : Option Json → Bool
  | some .null => true
  | some (.obj _) => true
  | some (.arr _) => true
  | _ => false

/-- Stated from the spec words, for comparison with the code check: the
posts field "is structurally a mapping", i.e. a JSON object proper
(excluding null and arrays). -/
def isStructurallyObject : Option Json → Bool
  | some (.obj _) => true
  | _ => false

/-- Outcome of loadManifest: either the parsed stored manifest is
returned, or a freshly created empty manifest is substituted. -/
inductive LoadResult where
  | stored (j : Json)
  | fresh

/-- The validation step of loadManifest on a parsed value
(source lines 79-84). -/
def loadFromParsed (parsed : Json) : LoadResult :=
  if versionIsOne (jget parsed "version") && typeofIsObject (jget parsed "posts") then
    .stored parsed
  else
    .fresh

/-- loadManifest on fetched content: an empty string is falsy in the
source condition if (content); a parse exception degrades to fresh. -/
def loadFromContent (parse : String → Except Unit Json) (content : String) : LoadResult :=
  if content = "" then .fresh
  else
    match parse content with
    | .error _ => .fresh
    | .ok parsed => loadFromParsed parsed

/-- Embedding of SyncManifestManager.loadManifest (source lines 75-92).
The fetch argument models this.client.getFileContent(MANIFEST_PATH)
(error = thrown exception, none = absent file) and parse models the
platform JSON.parse (error = parse exception); both throws are caught by
the try/catch of the source. -/
def loadManifest (fetch : Except Unit (Option String))
    (parse : String → Except Unit Json) : LoadResult :=
  match fetch with
  | .error _ => .fresh
  | .ok none => .fresh
  | .ok (some content) => loadFromContent parse content

end Manifest

/-- A concrete old manifest holding one slug whose document path lies
outside the content root. -/
def curDemo : Manifest.PublishManifest :=
  ⟨1, "", [("gone", ⟨"v.md", "elsewhere/index.md", ["content/gone/a.png"], "sha"⟩)]⟩

/-- A concrete parse function producing a version-1 manifest whose posts
field is JSON null. -/
def parseNullPosts : String → Except Unit Manifest.Json :=
  fun _ => .ok (.obj [("version", .num 1), ("posts", .null)])

namespace Pub

/-- The slice of an AssetReference consumed by the GitHub upload step. -/
structure AssetRef where
  vaultPath : String
  targetFilename : String
  targetPath : String
deriving DecidableEq

/-- Result of one asset upload attempt: a returned UploadResult flag, or
a thrown error message. -/
inductive UploadOutcome where
  | ok (uploaded : Bool)
  | err (msg : String)
deriving DecidableEq

/-- Result of publishing a single file (publisher source lines 14-22). -/
structure PublishResult where
  success : Bool
  slug : String
  markdownUploaded : Bool
  assetsUploaded : Nat
  assetsSkipped : Nat
  warnings : List String
deriving DecidableEq

/-- Warning text pushed when an asset upload throws
(publisher source line 301). -/
def assetFailWarning (name msg : String) : String :=
  "Asset upload failed (" ++ name ++ "): " ++ msg

/-- The asset upload loop of publishToGitHub (source lines 288-303):
collects assetPaths and counts uploaded and skipped assets; a throwing
upload contributes a warning and no path. The outcome argument gives the
result of createOrUpdateFile per target path. -/
def uploadAssetsLoop (outcome : String → UploadOutcome) :
    List AssetRef → List String × Nat × Nat × List String
  | [] => ([], 0, 0, [])
  | a :: rest =>
    let tail := uploadAssetsLoop outcome rest
    match outcome a.targetPath with
    | .ok b =>
      (a.targetPath :: tail.1,
       (if b then tail.2.1 + 1 else tail.2.1),
       (if b then tail.2.2.1 else tail.2.2.1 + 1),
       tail.2.2.2)
    | .err m => (tail.1, tail.2.1, tail.2.2.1, assetFailWarning a.targetFilename m :: tail.2.2.2)

/-- The successful-path result of publishToGitHub (source lines 272-322)
paired with the local assetPaths list; assetPaths is not a field of
PublishResult, so the pair records what the caller can still see versus
what the function computed. -/
def publishToGitHubSuccess (slug : String) (processedWarnings : List String)
    (assets : List AssetRef) (outcome : String → UploadOutcome)
    (mdUploaded : Bool) : PublishResult × List String :=
  let up := uploadAssetsLoop outcome assets
  ({ success := true, slug := slug, markdownUploaded := mdUploaded,
     assetsUploaded := up.2.1, assetsSkipped := up.2.2.1,
     warnings := processedWarnings ++ up.2.2.2 }, up.1)

/-- The ManifestPost recorded by the registration call of publishAll
(publisher source lines 151-159): the assets argument passed to
registerPublishedPost is result.warnings filtered by the prefix
"Asset:" and the digest argument is the slug itself. -/
def registeredPost (contentDirectory slug vaultPath : String)
    (result : PublishResult) : Manifest.ManifestPost :=
  { vaultPath := vaultPath,
    repoPath := contentDirectory ++ "/" ++ slug ++ "/index.md",
    assets := result.warnings.filter (fun w => strStartsWith w "Asset:"),
    contentSha := slug }

end Pub

namespace Limiter

/-- The concurrency bound the client constructs its limiter with
(client source line 114). -/
def maxConcurrent : Int := 5

/-- Limiter state plus client-lifecycle bookkeeping: running mirrors
this.running, queue is the pending-callback queue in arrival order
(clients named by numbers); holders are the clients currently inside the
try block of request, finished those whose request call has completed
(by returning or by raising). A client in none of the lists is idle. -/
structure LState where
  running : Int
  queue : List Nat
  holders : List Nat
  finished : List Nat
deriving DecidableEq

/-- The freshly constructed limiter: running = 0, empty queue. -/
def initState : LState := ⟨0, [], [], []⟩

/-- Events of the system: an acquire finding a free slot, an acquire at
capacity that enqueues, and the release from the finally block of
request, tagged with whether the request body returned or raised. -/
inductive LEvent where
  | acquireNow (c : Nat)
  | acquireWait (c : Nat)
  | release (c : Nat) (ok : Bool)
deriving DecidableEq

/-- One transition, modelled from ConcurrencyLimiter.acquire
(source lines 44-56), ConcurrencyLimiter.release (source lines 58-64)
and the acquire / try / finally shape of request (source lines 127-186):
acquire below capacity increments running and the caller proceeds;
acquire at capacity appends the caller to the queue; release decrements
running, then shifts the queue and, when a callback was pending, that
front client increments running and resumes. The release transition is
available to a holder for both outcomes of the body, because release
sits in the finally block. Guards reject events that cannot occur: an
acquire by a client already in the system, an immediate acquire at
capacity, a queued acquire below capacity, a release by a non-holder. -/
def step (s : LState) : LEvent → Option LState
  | .acquireNow c =>
    if c ∉ s.queue ∧ c ∉ s.holders ∧ c ∉ s.finished ∧ s.running < maxConcurrent then
      some { s with running := s.running + 1, holders := c :: s.holders }
    else none
  | .acquireWait c =>
    if c ∉ s.queue ∧ c ∉ s.holders ∧ c ∉ s.finished ∧ ¬ s.running < maxConcurrent then
      some { s with queue := s.queue ++ [c] }
    else none
  | .release c _ =>
    if c ∈ s.holders then
      match s.queue with
      | [] => some ⟨s.running - 1, [], s.holders.erase c, c :: s.finished⟩
      | d :: rest => some ⟨s.running - 1 + 1, rest, d :: s.holders.erase c, c :: s.finished⟩
    else none

/-- Run a list of events from a state; none when some event was
impossible. -/
def runEvents (s : LState) : List LEvent → Option LState
  | [] => some s
  | e :: rest =>
    match step s e with
    | none => none
    | some s2 => runEvents s2 rest

/-- Whether an event is a release performed by client c. -/
def isReleaseBy : LEvent → Nat → Bool
  | .release d _, c => d == c
  | _, _ => false

/-- Number of release events performed by client c in a trace. -/
def countReleases (evs : List LEvent) (c : Nat) : Nat :=
  evs.countP (fun e => isReleaseBy e c)

/-- The state invariant: running counts the holders, the bookkeeping
lists are duplicate-free and disjoint, and running never exceeds the
concurrency bound. -/
def Inv (s : LState) : Prop :=
  s.running = (s.holders.length : Int)
  ∧ s.holders.Nodup
  ∧ s.queue.Nodup
  ∧ (∀ c ∈ s.queue, c ∉ s.holders ∧ c ∉ s.finished)
  ∧ (∀ c ∈ s.holders, c ∉ s.finished)
  ∧ s.running ≤ maxConcurrent

end Limiter

namespace Assets

/-- A vault file as the extractor sees it (the TFile fields it reads). -/
structure VFile where
  path : String
  name : String
  basename : String
  extension : String
deriving DecidableEq

/-- What a link path resolves to: a concrete file, or a folder (the
non-TFile case of the source instanceof check). -/
inductive Dest where
  | file (f : VFile)
  | folder
deriving DecidableEq

/-- A resolved asset reference (asset-processor source lines 6-15). -/
structure AssetReference where
  vaultFile : VFile
  originalLink : String
  targetFilename : String
  targetPath : String
deriving DecidableEq

/-- Result of processing markdown content (source lines 20-27). -/
structure ProcessedContent where
  rewrittenMarkdown : String
  assets : List AssetReference
  warnings : List String
deriving DecidableEq

/-- The image extension allow-list (source line 30). -/
def imageExtensions : List String :=
  ["png", "jpg", "jpeg", "gif", "svg", "webp", "avif", "bmp", "ico"]

/-- ASCII lowercasing of a string (the toLowerCase call on an
extension). -/
def lowerStr (s : String) : String :=
  String.mk (s.data.map Char.toLower)

/-- Embedding of isImageFile (source lines 35-37). -/
def isImageFile (f : VFile) : Bool :=
  imageExtensions.contains (lowerStr f.extension)

/-- The whitespace class of the regex used by sanitizeFilename. -/
def isJsWhitespace (c : Char) : Bool :=
  let n := c.toNat
  (9 ≤ n && n ≤ 13) || n == 32 || n == 0xa0 || n == 0x1680
    || (0x2000 ≤ n && n ≤ 0x200a)
    || n == 0x2028 || n == 0x2029 || n == 0x202f
    || n == 0x205f || n == 0x3000 || n == 0xfeff

/-- Replacement of every maximal whitespace run by a single hyphen: the
first replace of sanitizeFilename. The Bool argument records whether the
scan is inside a whitespace run. -/
def collapseWs : Bool → List Char → List Char
  | _, [] => []
  | inWs, c :: cs =>
    if isJsWhitespace c then
      if inWs then collapseWs true cs else '-' :: collapseWs true cs
    else c :: collapseWs false cs

/-- The character class kept by the second replace of sanitizeFilename. -/
def allowedChar (c : Char) : Bool :=
  let n := c.toNat
  (97 ≤ n && n ≤ 122) || (65 ≤ n && n ≤ 90) || (48 ≤ n && n ≤ 57)
    || n == 46 || n == 95 || n == 45

/-- Embedding of sanitizeFilename (source lines 43-47): whitespace runs
collapse to one hyphen, then every character outside the allowed class
is removed. -/
def sanitizeFilename (filename : String) : String :=
  String.mk ((collapseWs false filename.data).filter allowedChar)

/-- One wikilink match of the regex on source line 75: the full matched
text and the captured link text. -/
structure WikiMatch where
  fullMatch : String
  linkText : String
deriving DecidableEq

/-- One markdown image-link match of the regex on source line 127. -/
structure MdMatch where
  fullMatch : String
  altText : String
  linkPath : String
deriving DecidableEq

/-- Try to parse a wikilink match at the head of the character list;
returns the match and the remaining characters. The character classes of
the regex exclude the closing bracket, so greedy scanning is exact. -/
def parseWikiAt : List Char → Option (WikiMatch × List Char)
  | '!' :: '[' :: '[' :: rest =>
    let body := rest.takeWhile (fun c => c != ']' && c != '|')
    let rest1 := rest.dropWhile (fun c => c != ']' && c != '|')
    if body.isEmpty then none
    else
      match rest1 with
      | ']' :: ']' :: rest2 =>
        some (⟨String.mk ('!' :: '[' :: '[' :: (body ++ [']', ']'])), String.mk body⟩, rest2)
      | '|' :: rest2 =>
        let cap := rest2.takeWhile (fun c => c != ']')
        let rest3 := rest2.dropWhile (fun c => c != ']')
        match rest3 with
        | ']' :: ']' :: rest4 =>
          some (⟨String.mk ('!' :: '[' :: '[' :: (body ++ '|' :: cap ++ [']', ']'])),
                 String.mk body⟩, rest4)
        | _ => none
      | _ => none
  | _ => none

/-- All wikilink matches left to right, continuing after each match, with
an explicit fuel bounding the scan length. -/
def findWikiAux : Nat → List Char → List WikiMatch
  | 0, _ => []
  | _ + 1, [] => []
  | fuel + 1, c :: cs =>
    match parseWikiAt (c :: cs) with
    | some (m, rest) => m :: findWikiAux fuel rest
    | none => findWikiAux fuel cs

/-- The wikilink matches of a document body. -/
def findWikiMatches (content : List Char) : List WikiMatch :=
  findWikiAux (content.length + 1) content

/-- Try to parse a markdown image-link match at the head of the
character list. -/
def parseMdAt : List Char → Option (MdMatch × List Char)
  | '!' :: '[' :: rest =>
    let alt := rest.takeWhile (fun c => c != ']')
    let rest1 := rest.dropWhile (fun c => c != ']')
    match rest1 with
    | ']' :: '(' :: rest2 =>
      let pathc := rest2.takeWhile (fun c => c != ')')
      let rest3 := rest2.dropWhile (fun c => c != ')')
      if pathc.isEmpty then none
      else
        match rest3 with
        | ')' :: rest4 =>
          some (⟨String.mk ('!' :: '[' :: (alt ++ ']' :: '(' :: (pathc ++ [')']))),
                 String.mk alt, String.mk pathc⟩, rest4)
        | _ => none
    | _ => none
  | _ => none

/-- All markdown image-link matches left to right. -/
def findMdAux : Nat → List Char → List MdMatch
  | 0, _ => []
  | _ + 1, [] => []
  | fuel + 1, c :: cs =>
    match parseMdAt (c :: cs) with
    | some (m, rest) => m :: findMdAux fuel rest
    | none => findMdAux fuel cs

/-- The markdown image-link matches of a document body. -/
def findMdMatches (content : List Char) : List MdMatch :=
  findMdAux (content.length + 1) content

/-- The processing state threaded through both passes: the collected
assets and warnings, the rewritten text, and the processedLinks map in
insertion order. -/
structure PState where
  assets : List AssetReference
  warnings : List String
  rewritten : List Char
  processedLinks : List (String × String)
deriving DecidableEq

/-- Map.get / Map.has of the processedLinks map. -/
def lookupPL : List (String × String) → String → Option String
  | [], _ => none
  | (k, v) :: rest, key => if k = key then some v else lookupPL rest key

/-- JavaScript String.replace with a string pattern: replace the first
occurrence of pat, or return the text unchanged when absent. -/
def replaceFirst (s pat repl : List Char) : List Char :=
  match s with
  | [] => []
  | c :: cs =>
    if pat.isPrefixOf (c :: cs) then repl ++ (c :: cs).drop pat.length
    else c :: replaceFirst cs pat repl

/-- Splitting a string at a separator character, JS String.split. -/
def splitChars (sep : Char) : List Char → List (List Char)
  | [] => [[]]
  | c :: cs =>
    let r := splitChars sep cs
    if c == sep then [] :: r
    else
      match r with
      | [] => [[c]]
      | g :: gs => (c :: g) :: gs

/-- One iteration of the wikilink loop (source lines 78-124): resolve
the link text, warn on failures, skip non-images, otherwise push an
AssetReference with the sanitized name and rewrite the first remaining
occurrence, remembering the replacement under the full match. -/
def wikiStep (resolve : String → Option Dest) (targetDirectory : String)
    (st : PState) (m : WikiMatch) : PState :=
  if m.linkText = "" then st
  else
    match lookupPL st.processedLinks m.fullMatch with
    | some repl =>
      { st with rewritten := replaceFirst st.rewritten m.fullMatch.data repl.data }
    | none =>
      match resolve m.linkText with
      | none =>
        { st with warnings := st.warnings ++ ["Could not resolve wikilink: " ++ m.linkText] }
      | some .folder =>
        { st with warnings := st.warnings ++ ["Link resolves to folder, not file: " ++ m.linkText] }
      | some (.file f) =>
        if isImageFile f then
          let san := sanitizeFilename f.name
          let repl := "![" ++ f.basename ++ "](" ++ san ++ ")"
          { assets := st.assets ++ [⟨f, m.fullMatch, san, targetDirectory ++ "/" ++ san⟩],
            warnings := st.warnings,
            rewritten := replaceFirst st.rewritten m.fullMatch.data repl.data,
            processedLinks := st.processedLinks ++ [(m.fullMatch, repl)] }
        else st

/-- The resolution of a markdown link path (source lines 156-168): the
resolver on the percent-decoded path, then the fallback lookup of the
bare filename among all vault files; an empty popped name is falsy and
yields no fallback. -/
def resolveMdPath (resolve : String → Option Dest) (decodeURI : String → String)
    (allFiles : List VFile) (linkPath : String) : Option Dest :=
  match resolve (decodeURI linkPath) with
  | some d => some d
  | none =>
    match (splitChars '/' linkPath.data).getLast? with
    | none => none
    | some nameOnly =>
      if nameOnly.isEmpty then none
      else
        match allFiles.find? (fun f => f.name = decodeURI (String.mk nameOnly)) with
        | some f => some (.file f)
        | none => none

/-- One iteration of the markdown-link loop (source lines 129-203):
external http, https and data targets are skipped outright; a cached
full match is only re-rewritten; otherwise the path is resolved with
fallback, failures warn, non-images are skipped, and a new
AssetReference is pushed only when no collected asset already has the
same resolved file path. -/
def mdStep (resolve : String → Option Dest) (decodeURI : String → String)
    (allFiles : List VFile) (targetDirectory : String)
    (st : PState) (m : MdMatch) : PState :=
  if m.linkPath = "" then st
  else if strStartsWith m.linkPath "http://" || strStartsWith m.linkPath "https://" then st
  else if strStartsWith m.linkPath "data:" then st
  else
    match lookupPL st.processedLinks m.fullMatch with
    | some cached =>
      if cached = "" then st
      else { st with rewritten := replaceFirst st.rewritten m.fullMatch.data cached.data }
    | none =>
      match resolveMdPath resolve decodeURI allFiles m.linkPath with
      | none =>
        { st with warnings := st.warnings ++ ["Could not resolve image link: " ++ m.linkPath] }
      | some .folder =>
        { st with warnings := st.warnings ++ ["Link resolves to folder, not file: " ++ m.linkPath] }
      | some (.file f) =>
        if isImageFile f then
          let san := sanitizeFilename f.name
          let repl := "![" ++ m.altText ++ "](" ++ san ++ ")"
          { assets :=
              if st.assets.any (fun a => a.vaultFile.path = f.path) then st.assets
              else st.assets ++ [⟨f, m.fullMatch, san, targetDirectory ++ "/" ++ san⟩],
            warnings := st.warnings,
            rewritten := replaceFirst st.rewritten m.fullMatch.data repl.data,
            processedLinks := st.processedLinks ++ [(m.fullMatch, repl)] }
        else st

/-- The initial processing state for a document body. -/
def initPState (content : String) : PState :=
  ⟨[], [], content.data, []⟩

/-- The first pass of processMarkdownAssets over the wikilink matches of
the original content. -/
def wikiPass (resolve : String → Option Dest) (targetDirectory : String)
    (content : List Char) (st : PState) : PState :=
  (findWikiMatches content).foldl (wikiStep resolve targetDirectory) st

/-- The second pass over the markdown-link matches of the original
content. -/
def mdPass (resolve : String → Option Dest) (decodeURI : String → String)
    (allFiles : List VFile) (targetDirectory : String)
    (content : List Char) (st : PState) : PState :=
  (findMdMatches content).foldl (mdStep resolve decodeURI allFiles targetDirectory) st

/-- Both passes composed on the initial state. -/
def processFull (resolve : String → Option Dest) (decodeURI : String → String)
    (allFiles : List VFile) (content : String) (targetDirectory : String) : PState :=
  mdPass resolve decodeURI allFiles targetDirectory content.data
    (wikiPass resolve targetDirectory content.data (initPState content))

/-- Embedding of processMarkdownAssets (source lines 61-210): the
resolver, the percent decoder and the vault file listing are the
injected platform capabilities. -/
def processMarkdownAssets (resolve : String → Option Dest) (decodeURI : String → String)
    (allFiles : List VFile) (content : String) (targetDirectory : String) : ProcessedContent :=
  let st := processFull resolve decodeURI allFiles content targetDirectory
  ⟨String.mk st.rewritten, st.assets, st.warnings⟩

end Assets

/-- The file both demo wikilinks resolve to. -/
def fDemo : Assets.VFile := ⟨"d/x.png", "x.png", "x", "png"⟩

/-- A resolver sending both the bare name and the qualified path to the
same vault file, as Obsidian shortest-path resolution does. -/
def resolveDemo : String → Option Assets.Dest :=
  fun s => if s = "x.png" || s = "d/x.png" then some (.file fDemo) else none

namespace GitBlob

theorem utf8Str_append (a b : String) : utf8Str (a ++ b) = utf8Str a ++ utf8Str b := by
  simp [utf8Str, String.data_append]

theorem computeGitBlobSha_eq (sha1 : List Nat → List Nat) (content : GitContent) :
    computeGitBlobSha sha1 content = toHexString (sha1 (blobPreimage (encodeContent content))) := by
  have h : utf8Str ("blob " ++ Nat.repr (encodeContent content).length ++ "\x00")
      = utf8Str ("blob " ++ Nat.repr (encodeContent content).length) ++ [0] := by
    rw [utf8Str_append]
    simp [utf8Str, String.data, utf8Char]
  simp [computeGitBlobSha, blobPreimage, h, List.append_assoc]

theorem hexChar_mem (n : Nat) (h : n < 16) : hexChar n ∈ hexDigits := by
  interval_cases n <;> decide

theorem toHexString_chars (bs : List Nat) (hb : ∀ b ∈ bs, b < 256) :
    ∀ c ∈ (toHexString bs).data, c ∈ hexDigits := by
  intro c hc
  simp only [toHexString, String.mk] at hc
  rw [List.mem_flatten] at hc
  obtain ⟨l, hl, hcl⟩ := hc
  rw [List.mem_map] at hl
  obtain ⟨b, hbmem, rfl⟩ := hl
  have hblt := hb b hbmem
  simp only [toHexByte, List.mem_cons, List.mem_singleton] at hcl
  rcases hcl with rfl | rfl | h
  · exact hexChar_mem _ (by omega)
  · exact hexChar_mem _ (Nat.mod_lt _ (by omega))
  · cases h

end GitBlob

namespace GH

theorem storeGet_storeSet (st : RemoteState) (p v : String) :
    storeGet (storeSet st p v) p = some v := by
  simp [storeGet, storeSet]

theorem createOrUpdateFile_absent (sha1 : List Nat → List Nat) (st : RemoteState)
    (path : String) (content : GitBlob.GitContent)
    (h : getFileSha st path = none) :
    createOrUpdateFile sha1 st path content
      = (⟨true, GitBlob.computeGitBlobSha sha1 content, path⟩,
         storeSet st path (GitBlob.computeGitBlobSha sha1 content), true) := by
  unfold createOrUpdateFile
  rw [h]

theorem createOrUpdateFile_same (sha1 : List Nat → List Nat) (st : RemoteState)
    (path : String) (content : GitBlob.GitContent)
    (h : getFileSha st path = some (GitBlob.computeGitBlobSha sha1 content)) :
    createOrUpdateFile sha1 st path content
      = (⟨false, GitBlob.computeGitBlobSha sha1 content, path⟩, st, false) := by
  unfold createOrUpdateFile
  rw [h]
  simp

theorem createOrUpdateFile_differ (sha1 : List Nat → List Nat) (st : RemoteState)
    (path : String) (content : GitBlob.GitContent) (s : String)
    (h : getFileSha st path = some s)
    (hne : s ≠ GitBlob.computeGitBlobSha sha1 content) :
    createOrUpdateFile sha1 st path content
      = (⟨true, GitBlob.computeGitBlobSha sha1 content, path⟩,
         storeSet st path (GitBlob.computeGitBlobSha sha1 content), true) := by
  unfold createOrUpdateFile
  rw [h]
  simp [hne]

end GH

namespace Manifest

theorem deleteLoop_startsWith (newKeys : List String) (dir : String)
    (posts : List (String × ManifestPost)) :
    ∀ e ∈ (deleteLoop newKeys dir posts).pathsToDelete, strStartsWith e.path dir = true := by
  induction posts with
  | nil => intro e he; cases he
  | cons hd rest ih =>
    obtain ⟨slug, oldPost⟩ := hd
    intro e he
    simp only [deleteLoop] at he
    by_cases hc : newKeys.contains slug
    · rw [if_pos hc] at he
      exact ih e he
    · rw [if_neg hc] at he
      simp only [List.mem_append] at he
      rcases he with (hrepo | hassets) | htail
      · by_cases hs : strStartsWith oldPost.repoPath dir
        · rw [if_pos hs] at hrepo
          simp only [List.mem_singleton] at hrepo
          rw [hrepo]
          exact hs
        · rw [if_neg hs] at hrepo
          cases hrepo
      · rw [List.mem_map] at hassets
        obtain ⟨a, ha, rfl⟩ := hassets
        exact (List.mem_filter.mp ha).2
      · exact ih e htail

theorem deleteLoop_sources (newKeys : List String) (dir : String)
    (posts : List (String × ManifestPost)) :
    ∀ e ∈ (deleteLoop newKeys dir posts).pathsToDelete,
      ∃ slug post, (slug, post) ∈ posts ∧ newKeys.contains slug = false ∧
        (e.path = post.repoPath ∨ e.path ∈ post.assets) := by
  induction posts with
  | nil => intro e he; cases he
  | cons hd rest ih =>
    obtain ⟨slug, oldPost⟩ := hd
    intro e he
    simp only [deleteLoop] at he
    by_cases hc : newKeys.contains slug
    · rw [if_pos hc] at he
      obtain ⟨s, p, hmem, hk, hp⟩ := ih e he
      exact ⟨s, p, List.mem_cons_of_mem _ hmem, hk, hp⟩
    · rw [if_neg hc] at he
      simp only [List.mem_append] at he
      rcases he with (hrepo | hassets) | htail
      · refine ⟨slug, oldPost, List.mem_cons_self .., Bool.eq_false_iff.mpr hc, Or.inl ?_⟩
        by_cases hs : strStartsWith oldPost.repoPath dir
        · rw [if_pos hs] at hrepo
          simp only [List.mem_singleton] at hrepo
          rw [hrepo]
        · rw [if_neg hs] at hrepo
          cases hrepo
      · rw [List.mem_map] at hassets
        obtain ⟨a, ha, rfl⟩ := hassets
        exact ⟨slug, oldPost, List.mem_cons_self .., Bool.eq_false_iff.mpr hc,
          Or.inr (List.mem_filter.mp ha).1⟩
      · obtain ⟨s, p, hmem, hk, hp⟩ := ih e htail
        exact ⟨s, p, List.mem_cons_of_mem _ hmem, hk, hp⟩

end Manifest

/-- C4: computeGitBlobSha hashes exactly the byte sequence
"blob " ++ decimal byte length ++ NUL ++ raw bytes (UTF-8 encoding a text
input first), renders the digest in lowercase hexadecimal, and is
deterministic: equal byte sequences give equal digests. -/
theorem c4_blob_digest_canonical (sha1 : List Nat → List Nat)
    (content : GitBlob.GitContent) :
    GitBlob.computeGitBlobSha sha1 content
      = GitBlob.toHexString (sha1 (GitBlob.blobPreimage (GitBlob.encodeContent content)))
    ∧ (∀ c2, GitBlob.encodeContent content = GitBlob.encodeContent c2 →
        GitBlob.computeGitBlobSha sha1 content = GitBlob.computeGitBlobSha sha1 c2)
    ∧ ((∀ b ∈ sha1 (GitBlob.blobPreimage (GitBlob.encodeContent content)), b < 256) →
        ∀ c ∈ (GitBlob.computeGitBlobSha sha1 content).data, c ∈ GitBlob.hexDigits) := by
  refine ⟨GitBlob.computeGitBlobSha_eq sha1 content, ?_, ?_⟩
  · intro c2 h
    rw [GitBlob.computeGitBlobSha_eq, GitBlob.computeGitBlobSha_eq, h]
  · intro hb c hc
    rw [GitBlob.computeGitBlobSha_eq] at hc
    exact GitBlob.toHexString_chars _ hb c hc

theorem c4_blob_digest_canonical_witness :
    (∀ b ∈ sha1Demo (GitBlob.blobPreimage (GitBlob.encodeContent (.text "hi"))), b < 256)
    ∧ 'a' ∈ GitBlob.hexDigits :=
  ⟨by decide, (c4_blob_digest_canonical sha1Demo (.text "hi")).2.2 (by decide) 'a' (by decide)⟩

/-- C1: when the remote store already holds, at the given path, a file
whose stored digest equals the Git blob digest of the content,
createOrUpdateFile performs no data transfer and returns uploaded = false
with the existing digest and the given path; and a second call with
byte-identical content after a successful upload transfers no data and
reports the same digest as the first call. -/
theorem c1_upload_idempotent (sha1 : List Nat → List Nat) (st : GH.RemoteState)
    (path : String) (content : GitBlob.GitContent) :
    (GH.getFileSha st path = some (GitBlob.computeGitBlobSha sha1 content) →
      GH.createOrUpdateFile sha1 st path content
        = (⟨false, GitBlob.computeGitBlobSha sha1 content, path⟩, st, false))
    ∧ ((GH.createOrUpdateFile sha1 st path content).1.uploaded = true →
        GH.createOrUpdateFile sha1 (GH.createOrUpdateFile sha1 st path content).2.1 path content
          = (⟨false, (GH.createOrUpdateFile sha1 st path content).1.sha, path⟩,
             (GH.createOrUpdateFile sha1 st path content).2.1, false)) := by
  constructor
  · intro h
    exact GH.createOrUpdateFile_same sha1 st path content h
  · intro hup
    cases hg : GH.getFileSha st path with
    | none =>
      rw [GH.createOrUpdateFile_absent sha1 st path content hg]
      exact GH.createOrUpdateFile_same sha1 _ path content
        (GH.storeGet_storeSet st path _)
    | some s =>
      by_cases hs : s = GitBlob.computeGitBlobSha sha1 content
      · rw [hs] at hg
        rw [GH.createOrUpdateFile_same sha1 st path content hg] at hup
        cases hup
      · rw [GH.createOrUpdateFile_differ sha1 st path content s hg hs]
        exact GH.createOrUpdateFile_same sha1 _ path content
          (GH.storeGet_storeSet st path _)

theorem c1_upload_idempotent_witness :
    GH.createOrUpdateFile sha1Demo demoStore "p" (GitBlob.GitContent.text "x")
      = (⟨false, GitBlob.computeGitBlobSha sha1Demo (.text "x"), "p"⟩, demoStore, false) :=
  (c1_upload_idempotent sha1Demo demoStore "p" (.text "x")).1 (by decide)

/-- C2: every entry of pathsToDelete starts with the content-directory
prefix; every entry stems from a slug present in the old manifest and
absent from the new one, and is that removed document's repoPath or one
of its recorded asset paths; and a ManifestPost whose repoPath lies
outside the content root never has that path scheduled for deletion. -/
theorem c2_delete_operations_safe (cur : Manifest.PublishManifest)
    (newPosts : List (String × Manifest.ManifestPost)) (dir : String) :
    (∀ e ∈ (Manifest.computeDeleteOperations (some cur) newPosts dir).pathsToDelete,
       strStartsWith e.path dir = true)
    ∧ (∀ e ∈ (Manifest.computeDeleteOperations (some cur) newPosts dir).pathsToDelete,
       ∃ slug post, (slug, post) ∈ cur.posts
         ∧ (newPosts.map Prod.fst).contains slug = false
         ∧ (e.path = post.repoPath ∨ e.path ∈ post.assets))
    ∧ (∀ slug post, (slug, post) ∈ cur.posts → strStartsWith post.repoPath dir = false →
       post.repoPath ∉
         ((Manifest.computeDeleteOperations (some cur) newPosts dir).pathsToDelete.map
           Manifest.PathSha.path)) := by
  refine ⟨Manifest.deleteLoop_startsWith _ dir cur.posts,
          Manifest.deleteLoop_sources _ dir cur.posts, ?_⟩
  intro slug post _ hout hmem
  rw [List.mem_map] at hmem
  obtain ⟨e, he, hpath⟩ := hmem
  have := Manifest.deleteLoop_startsWith (newPosts.map Prod.fst) dir cur.posts e he
  rw [hpath, hout] at this
  cases this

theorem c2_delete_operations_safe_witness :
    "elsewhere/index.md" ∉
      ((Manifest.computeDeleteOperations (some curDemo) [] "content").pathsToDelete.map
        Manifest.PathSha.path) :=
  (c2_delete_operations_safe curDemo [] "content").2.2 "gone"
    ⟨"v.md", "elsewhere/index.md", ["content/gone/a.png"], "sha"⟩ (by decide) (by decide)

/-- C8 counterexample: a fetched manifest parsing to a version-1 value
whose posts field is JSON null is returned as the stored manifest, even
though null is not structurally an object, so the claim as stated fails
at this input. -/
theorem c8_load_manifest_counterexample :
    Manifest.loadManifest (.ok (some "m")) parseNullPosts
      = .stored (.obj [("version", Manifest.Json.num 1), ("posts", .null)])
    ∧ Manifest.isStructurallyObject
        (Manifest.jget (.obj [("version", Manifest.Json.num 1), ("posts", .null)]) "posts")
        = false :=
  ⟨rfl, rfl⟩

/-- C8 (amended): loadManifest is total (never propagates an exception),
returns the parsed stored manifest only when the fetch succeeded with
non-empty content that parses, the version field strictly equals 1 and
the posts field has JavaScript typeof object (a check that also admits
null and arrays), and degrades to a fresh empty manifest in every other
case, in particular on a fetch error. -/
theorem c8_load_manifest_guarded (fetch : Except Unit (Option String))
    (parse : String → Except Unit Manifest.Json) :
    (Manifest.loadManifest fetch parse = .fresh
      ∨ ∃ j, Manifest.loadManifest fetch parse = .stored j)
    ∧ (∀ j, Manifest.loadManifest fetch parse = .stored j →
        ∃ content, fetch = .ok (some content) ∧ ¬ content = "" ∧ parse content = .ok j
          ∧ Manifest.versionIsOne (Manifest.jget j "version") = true
          ∧ Manifest.typeofIsObject (Manifest.jget j "posts") = true)
    ∧ (∀ e, fetch = .error e → Manifest.loadManifest fetch parse = .fresh) := by
  refine ⟨?_, ?_, ?_⟩
  · cases h : Manifest.loadManifest fetch parse with
    | fresh => exact Or.inl rfl
    | stored j => exact Or.inr ⟨j, rfl⟩
  · intro j hj
    match fetch with
    | .error e => cases hj
    | .ok none => cases hj
    | .ok (some content) =>
      have hj' : Manifest.loadFromContent parse content = .stored j := hj
      unfold Manifest.loadFromContent at hj'
      by_cases hc : content = ""
      · rw [if_pos hc] at hj'
        cases hj'
      · rw [if_neg hc] at hj'
        match hp : parse content with
        | .error e =>
          rw [hp] at hj'
          cases hj'
        | .ok parsed =>
          rw [hp] at hj'
          have hj2 : Manifest.loadFromParsed parsed = .stored j := hj'
          unfold Manifest.loadFromParsed at hj2
          by_cases hcond : (Manifest.versionIsOne (Manifest.jget parsed "version")
              && Manifest.typeofIsObject (Manifest.jget parsed "posts")) = true
          · rw [if_pos hcond] at hj2
            cases hj2
            obtain ⟨h1, h2⟩ := (Bool.and_eq_true _ _).mp hcond
            exact ⟨content, rfl, hc, hp, h1, h2⟩
          · rw [if_neg hcond] at hj2
            cases hj2
  · intro e he
    rw [he]
    rfl

theorem c8_load_manifest_guarded_witness :
    Manifest.loadManifest (.error ()) parseNullPosts = .fresh :=
  (c8_load_manifest_guarded (.error ()) parseNullPosts).2.2 () rfl

/-- C3: evaluation at the failing input. A publishAll run over a document
with slug p in content directory content, containing one image asset that
uploads successfully to content/p/img.png: publishToGitHub collects the
asset path, but the ManifestPost recorded by the registration call holds
an empty assets list (the warnings filtered by the prefix "Asset:") and
the slug as contentSha, not the asset repository paths and not a content
digest. Asset failure warnings never match the filter either. -/
theorem c3_registration_drops_asset_paths :
    (Pub.publishToGitHubSuccess "p" []
        [⟨"images/img.png", "img.png", "content/p/img.png"⟩]
        (fun _ => .ok true) true).2 = ["content/p/img.png"]
    ∧ Pub.registeredPost "content" "p" "notes/p.md"
        (Pub.publishToGitHubSuccess "p" []
          [⟨"images/img.png", "img.png", "content/p/img.png"⟩]
          (fun _ => .ok true) true).1
        = ⟨"notes/p.md", "content/p/index.md", [], "p"⟩
    ∧ strStartsWith (Pub.assetFailWarning "img.png" "boom") "Asset:" = false := by
  refine ⟨rfl, ?_, by decide⟩
  decide

theorem requestLoop_rl_step (outcomes : Nat → GH.AttemptOutcome)
    (rem attempt backoff : Nat) (lastError : Option GH.GHError) (sleeps : List Nat)
    (h : GH.isRateLimitResp (outcomes attempt) = true) :
    GH.requestLoop outcomes (rem + 1) attempt backoff lastError sleeps
      = GH.requestLoop outcomes rem (attempt + 1) (backoff * 2) lastError
          (sleeps ++ [GH.rlWait (outcomes attempt) backoff]) := by
  cases ho : outcomes attempt with
  | exn m =>
    rw [ho] at h
    cases h
  | resp r =>
    rw [ho] at h
    have hst : r.status = 403 ∨ r.status = 429 := by
      simpa [GH.isRateLimitResp] using h
    have h1 : ¬(200 ≤ r.status ∧ r.status < 300) := by
      rcases hst with hst | hst <;> omega
    have h2 : ¬(r.status = 404) := by
      rcases hst with hst | hst <;> omega
    have h1f : (200 ≤ r.status ∧ r.status < 300) = False := eq_false h1
    have h2f : (r.status = 404) = False := eq_false h2
    have h3t : (r.status = 403 ∨ r.status = 429) = True := eq_true hst
    simp only [GH.requestLoop, ho, h1f, h2f, h3t, if_true, if_false]
    simp [GH.rlWait, GH.waitOf, ho]

/-- C5 counterexample: with a remote store answering every attempt with
status 429 and no retry-after hint, the call makes 3 attempts, sleeps
1000, 2000 and 4000 ms, and then raises the generic retries-exhausted
error, which is not the error of the last observed rate-limited
response, so the claim as stated fails at this input. -/
theorem c5_rate_limit_counterexample :
    GH.request allRateLimited 3 = ⟨3, [1000, 2000, 4000], .error .exhausted⟩
    ∧ GH.GHError.exhausted ≠ GH.GHError.apiError 429 "rate limited" := by
  refine ⟨rfl, ?_⟩
  intro h
  cases h

/-- C5 (amended): against a remote store answering every attempt with a
rate-limiting status (403 or 429), the client makes exactly 3 attempts,
sleeping after each rate-limited response for the server retry-after
hint times 1000 when present, else a backoff starting at 1000 ms that
doubles after each rate-limited response, each sleep capped at 30000 ms;
after the final attempt the call raises the generic retries-exhausted
error, because rate-limited responses are not recorded as the last
observed error. -/
theorem c5_rate_limit_retry_bound (outcomes : Nat → GH.AttemptOutcome)
    (h : ∀ i, i < 3 → GH.isRateLimitResp (outcomes i) = true) :
    GH.request outcomes 3
      = ⟨3, [GH.rlWait (outcomes 0) 1000, GH.rlWait (outcomes 1) 2000,
             GH.rlWait (outcomes 2) 4000], .error .exhausted⟩ := by
  rw [GH.request,
    requestLoop_rl_step outcomes 2 0 1000 none [] (h 0 (by omega)),
    requestLoop_rl_step outcomes 1 1 2000 none _ (h 1 (by omega)),
    requestLoop_rl_step outcomes 0 2 4000 none _ (h 2 (by omega))]
  rfl

theorem c5_rate_limit_retry_bound_witness :
    GH.request allRateLimited 3
      = ⟨3, [GH.rlWait (allRateLimited 0) 1000, GH.rlWait (allRateLimited 1) 2000,
             GH.rlWait (allRateLimited 2) 4000], .error .exhausted⟩ :=
  c5_rate_limit_retry_bound allRateLimited (fun _ _ => rfl)

/-- C10: getFileContent returns none when the status is 404 or the data
is absent, and also whenever the response reports any content encoding
other than base64; an existing file with an unexpected encoding is
indistinguishable from a missing file at this interface. -/
theorem c10_get_file_content_encoding (decodeB64 : String → String)
    (status : Nat) (data : Option GH.FileData) :
    (∀ d, data = some d → d.encoding ≠ "base64" →
      GH.getFileContent decodeB64 status data = none)
    ∧ (status = 404 ∨ data = none → GH.getFileContent decodeB64 status data = none)
    ∧ (∀ d, d.encoding ≠ "base64" →
        GH.getFileContent decodeB64 200 (some d) = GH.getFileContent decodeB64 404 none) := by
  refine ⟨?_, ?_, ?_⟩
  · intro d hd henc
    have hf : (d.encoding = "base64") = False := eq_false henc
    by_cases hs : status = 404
    · simp only [GH.getFileContent, if_pos hs]
    · simp only [GH.getFileContent, if_neg hs, hd, hf, if_false]
  · intro hcase
    rcases hcase with hs | hd
    · simp only [GH.getFileContent, if_pos hs]
    · by_cases hs : status = 404
      · simp only [GH.getFileContent, if_pos hs]
      · simp only [GH.getFileContent, if_neg hs, hd]
  · intro d henc
    have hf : (d.encoding = "base64") = False := eq_false henc
    simp [GH.getFileContent, hf]

theorem c10_get_file_content_encoding_witness :
    GH.getFileContent id 200 (some ⟨"abc", "utf-8"⟩)
      = GH.getFileContent id 404 none :=
  (c10_get_file_content_encoding id 200 (some ⟨"abc", "utf-8"⟩)).2.2
    ⟨"abc", "utf-8"⟩ (by decide)

namespace Limiter

theorem step_preserves (s s' : LState) (e : LEvent) (hs : Inv s)
    (h : step s e = some s') :
    Inv s'
    ∧ (∀ c, (if c ∈ s'.finished then (1 : Nat) else 0)
        = (if c ∈ s.finished then (1 : Nat) else 0)
          + (if isReleaseBy e c then 1 else 0)) := by
  obtain ⟨hrun, hnodH, hnodQ, hqdis, hhdis, hbound⟩ := hs
  cases e with
  | acquireNow c =>
    simp only [step] at h
    by_cases hg : c ∉ s.queue ∧ c ∉ s.holders ∧ c ∉ s.finished ∧ s.running < maxConcurrent
    · rw [if_pos hg] at h
      obtain ⟨hq, hh, hf, hlt⟩ := hg
      cases h
      refine ⟨⟨?_, List.nodup_cons.mpr ⟨hh, hnodH⟩, hnodQ, ?_, ?_, ?_⟩, ?_⟩
      · simp only [List.length_cons]
        push_cast
        omega
      · intro d hd
        refine ⟨?_, (hqdis d hd).2⟩
        intro hmem
        rcases List.mem_cons.mp hmem with rfl | hmem2
        · exact hq hd
        · exact (hqdis d hd).1 hmem2
      · intro d hd
        rcases List.mem_cons.mp hd with rfl | hd2
        · exact hf
        · exact hhdis d hd2
      · simp only [maxConcurrent] at hlt ⊢
        omega
      · intro c2
        simp [isReleaseBy]
    · rw [if_neg hg] at h
      cases h
  | acquireWait c =>
    simp only [step] at h
    by_cases hg : c ∉ s.queue ∧ c ∉ s.holders ∧ c ∉ s.finished ∧ ¬ s.running < maxConcurrent
    · rw [if_pos hg] at h
      obtain ⟨hq, hh, hf, _⟩ := hg
      cases h
      refine ⟨⟨hrun, hnodH, ?_, ?_, hhdis, hbound⟩, ?_⟩
      · rw [List.nodup_append]
        exact ⟨hnodQ, List.nodup_singleton c, by
          intro x hx hx2
          rw [List.mem_singleton] at hx2
          subst hx2
          exact hq hx⟩
      · intro d hd
        rcases List.mem_append.mp hd with hd2 | hd2
        · exact hqdis d hd2
        · rw [List.mem_singleton] at hd2
          subst hd2
          exact ⟨hh, hf⟩
      · intro c2
        simp [isReleaseBy]
    · rw [if_neg hg] at h
      cases h
  | release c b =>
    simp only [step] at h
    by_cases hg : c ∈ s.holders
    · rw [if_pos hg] at h
      have hlen : 0 < s.holders.length := List.length_pos_of_mem hg
      have herase : (s.holders.erase c).length = s.holders.length - 1 :=
        List.length_erase_of_mem hg
      have hcf : c ∉ s.finished := hhdis c hg
      have hindic : ∀ c2, (if c2 ∈ c :: s.finished then (1 : Nat) else 0)
          = (if c2 ∈ s.finished then (1 : Nat) else 0)
            + (if isReleaseBy (.release c b) c2 then 1 else 0) := by
        intro c2
        by_cases hcc : c2 = c
        · subst hcc
          simp [isReleaseBy, hcf]
        · simp [isReleaseBy, hcc, Ne.symm hcc]
      cases hq : s.queue with
      | nil =>
        rw [hq] at h
        cases h
        refine ⟨⟨?_, hnodH.erase c, List.nodup_nil, ?_, ?_, ?_⟩, hindic⟩
        · rw [herase, hrun]
          push_cast [hlen]
          omega
        · intro d hd
          cases hd
        · intro d hd
          have hd2 := List.mem_of_mem_erase hd
          intro hmem
          rcases List.mem_cons.mp hmem with rfl | hmem2
          · exact ((List.Nodup.mem_erase_iff hnodH).mp hd).1 rfl
          · exact hhdis d hd2 hmem2
        · simp only [maxConcurrent] at hbound ⊢
          omega
      | cons d rest =>
        rw [hq] at h
        cases h
        have hdq : d ∈ s.queue := by
          rw [hq]
          exact List.mem_cons_self ..
        have hdh : d ∉ s.holders := (hqdis d hdq).1
        have hdf : d ∉ s.finished := (hqdis d hdq).2
        have hdc : d ≠ c := fun hx => hdh (hx ▸ hg)
        have hqn : (d :: rest).Nodup := hq ▸ hnodQ
        refine ⟨⟨?_, ?_, (List.nodup_cons.mp hqn).2, ?_, ?_, ?_⟩, hindic⟩
        · simp only [List.length_cons, herase, hrun]
          push_cast [hlen]
          omega
        · exact List.nodup_cons.mpr
            ⟨fun hmem => hdh (List.mem_of_mem_erase hmem), hnodH.erase c⟩
        · intro x hx
          have hxq : x ∈ s.queue := by
            rw [hq]
            exact List.mem_cons_of_mem _ hx
          have hxd : x ≠ d := by
            intro hxd
            exact (List.nodup_cons.mp hqn).1 (hxd ▸ hx)
          refine ⟨?_, ?_⟩
          · intro hmem
            rcases List.mem_cons.mp hmem with rfl | hmem2
            · exact hxd rfl
            · exact (hqdis x hxq).1 (List.mem_of_mem_erase hmem2)
          · intro hmem
            rcases List.mem_cons.mp hmem with rfl | hmem2
            · exact (hqdis x hxq).1 hg
            · exact (hqdis x hxq).2 hmem2
        · intro x hx
          rcases List.mem_cons.mp hx with rfl | hx2
          · intro hmem
            rcases List.mem_cons.mp hmem with rfl | hmem2
            · exact hdc rfl
            · exact hdf hmem2
          · have hxh := List.mem_of_mem_erase hx2
            intro hmem
            rcases List.mem_cons.mp hmem with rfl | hmem2
            · exact ((List.Nodup.mem_erase_iff hnodH).mp hx2).1 rfl
            · exact hhdis x hxh hmem2
        · simp only [maxConcurrent] at hbound ⊢
          omega
    · rw [if_neg hg] at h
      cases h

theorem runEvents_preserves (evs : List LEvent) : ∀ s s', Inv s →
    runEvents s evs = some s' →
    Inv s' ∧ ∀ c, (if c ∈ s'.finished then (1 : Nat) else 0)
      = (if c ∈ s.finished then (1 : Nat) else 0) + countReleases evs c := by
  induction evs with
  | nil =>
    intro s s' hs h
    cases h
    refine ⟨hs, ?_⟩
    intro c
    simp [countReleases]
  | cons e rest ih =>
    intro s s' hs h
    unfold runEvents at h
    cases hstep : step s e with
    | none =>
      rw [hstep] at h
      cases h
    | some s2 =>
      rw [hstep] at h
      obtain ⟨hi2, hcount2⟩ := step_preserves s s2 e hs hstep
      obtain ⟨hi3, hcount3⟩ := ih s2 s' hi2 h
      refine ⟨hi3, ?_⟩
      intro c
      rw [hcount3 c, hcount2 c]
      simp only [countReleases, List.countP_cons]
      omega

theorem step_queue_shape (s2 s3 : LState) (e : LEvent) (h : step s2 e = some s3) :
    s3.queue = s2.queue ∨ (∃ d, s3.queue = s2.queue ++ [d])
      ∨ (∃ d, s2.queue = d :: s3.queue ∧ d ∈ s3.holders) := by
  cases e with
  | acquireNow c =>
    simp only [step] at h
    by_cases hg : c ∉ s2.queue ∧ c ∉ s2.holders ∧ c ∉ s2.finished ∧ s2.running < maxConcurrent
    · rw [if_pos hg] at h
      cases h
      exact Or.inl rfl
    · rw [if_neg hg] at h
      cases h
  | acquireWait c =>
    simp only [step] at h
    by_cases hg : c ∉ s2.queue ∧ c ∉ s2.holders ∧ c ∉ s2.finished ∧ ¬ s2.running < maxConcurrent
    · rw [if_pos hg] at h
      cases h
      exact Or.inr (Or.inl ⟨c, rfl⟩)
    · rw [if_neg hg] at h
      cases h
  | release c b =>
    simp only [step] at h
    by_cases hg : c ∈ s2.holders
    · rw [if_pos hg] at h
      cases hq : s2.queue with
      | nil =>
        rw [hq] at h
        cases h
        exact Or.inl rfl
      | cons d rest =>
        rw [hq] at h
        cases h
        exact Or.inr (Or.inr ⟨d, rfl, List.mem_cons_self ..⟩)
    · rw [if_neg hg] at h
      cases h

theorem step_promote_head (s s3 : LState) (e : LEvent) (hs : Inv s)
    (h : step s e = some s3) (c : Nat) (hcq : c ∈ s.queue) (hch : c ∈ s3.holders) :
    s.queue.head? = some c := by
  obtain ⟨_, _, hnodQ, hqdis, _, _⟩ := hs
  cases e with
  | acquireNow c2 =>
    simp only [step] at h
    by_cases hg : c2 ∉ s.queue ∧ c2 ∉ s.holders ∧ c2 ∉ s.finished ∧ s.running < maxConcurrent
    · rw [if_pos hg] at h
      cases h
      rcases List.mem_cons.mp hch with rfl | hch2
      · exact absurd hcq hg.1
      · exact absurd hch2 (hqdis c hcq).1
    · rw [if_neg hg] at h
      cases h
  | acquireWait c2 =>
    simp only [step] at h
    by_cases hg : c2 ∉ s.queue ∧ c2 ∉ s.holders ∧ c2 ∉ s.finished ∧ ¬ s.running < maxConcurrent
    · rw [if_pos hg] at h
      cases h
      exact absurd hch (hqdis c hcq).1
    · rw [if_neg hg] at h
      cases h
  | release c2 b =>
    simp only [step] at h
    by_cases hg : c2 ∈ s.holders
    · rw [if_pos hg] at h
      cases hq : s.queue with
      | nil =>
        rw [hq] at hcq
        cases hcq
      | cons d rest =>
        rw [hq] at h
        cases h
        rcases List.mem_cons.mp hch with rfl | hch2
        · rfl
        · exact absurd (List.mem_of_mem_erase hch2) (hqdis c hcq).1
    · rw [if_neg hg] at h
      cases h

theorem initState_inv : Inv initState := by
  refine ⟨rfl, List.nodup_nil, List.nodup_nil, ?_, ?_, ?_⟩
  · intro c hc
    cases hc
  · intro c hc
    cases hc
  · simp [initState, maxConcurrent]

end Limiter

/-- C6: in every state reachable by a valid trace, the number of
in-flight requests stays between 0 and 5; a step only changes the
pending queue by appending an arriving caller at the tail, by promoting
exactly the front caller into the holders, or not at all, so waiting
callers are released one at a time in FIFO arrival order; on the reached
state only the queue head can be promoted by the next step; and every
client counts exactly one release event once its request finished
(whether the body returned or raised, since release sits in the finally
block), zero before, and a finished client can never release again. -/
theorem c6_limiter_bounded_fifo (evs : List Limiter.LEvent) (s : Limiter.LState)
    (h : Limiter.runEvents Limiter.initState evs = some s) :
    (0 ≤ s.running ∧ s.running ≤ 5)
    ∧ (∀ c, Limiter.countReleases evs c = if c ∈ s.finished then 1 else 0)
    ∧ (∀ s2 s3 e, Limiter.step s2 e = some s3 →
        s3.queue = s2.queue ∨ (∃ d, s3.queue = s2.queue ++ [d])
          ∨ (∃ d, s2.queue = d :: s3.queue ∧ d ∈ s3.holders))
    ∧ (∀ e s3, Limiter.step s e = some s3 →
        ∀ c ∈ s.queue, c ∈ s3.holders → s.queue.head? = some c)
    ∧ (∀ c ∈ s.finished, ∀ b, Limiter.step s (.release c b) = none) := by
  obtain ⟨hinv, hcount⟩ :=
    Limiter.runEvents_preserves evs Limiter.initState s Limiter.initState_inv h
  refine ⟨⟨?_, ?_⟩, ?_, ?_, ?_, ?_⟩
  · rw [hinv.1]
    positivity
  · have hb := hinv.2.2.2.2.2
    simp only [Limiter.maxConcurrent] at hb
    exact hb
  · intro c
    have hc := hcount c
    simp only [Limiter.initState, List.not_mem_nil, if_false] at hc
    omega
  · intro s2 s3 e hstep
    exact Limiter.step_queue_shape s2 s3 e hstep
  · intro e s3 hstep c hcq hch
    exact Limiter.step_promote_head s s3 e hinv hstep c hcq hch
  · intro c hcf b
    have hch : c ∉ s.holders := fun hmem => hinv.2.2.2.2.1 c hmem hcf
    simp only [Limiter.step]
    rw [if_neg hch]

theorem c6_limiter_bounded_fifo_witness :
    Limiter.step ⟨0, [], [], [0]⟩ (.release 0 true) = none :=
  (c6_limiter_bounded_fifo [.acquireNow 0, .release 0 false] ⟨0, [], [], [0]⟩
    (by decide)).2.2.2.2 0 (by decide) true

theorem foldl_fixed {α β : Type} (f : α → β → α) (l : List β)
    (h : ∀ b ∈ l, ∀ a, f a b = a) : ∀ a, l.foldl f a = a := by
  induction l with
  | nil => intro a; rfl
  | cons b rest ih =>
    intro a
    rw [List.foldl_cons, h b (List.mem_cons_self ..) a]
    exact ih (fun b2 hb2 a2 => h b2 (List.mem_cons_of_mem _ hb2) a2) a

namespace Assets

end Assets

theorem strStartsWith_head_conflict (s p q : String) (cp cq : Char)
    (hp : p.data.head? = some cp) (hq : q.data.head? = some cq) (hne : cp ≠ cq)
    (hsp : strStartsWith s p = true) : strStartsWith s q = false := by
  unfold strStartsWith at *
  rw [List.isPrefixOf_iff_prefix] at hsp
  by_contra hb
  rw [Bool.not_eq_false, List.isPrefixOf_iff_prefix] at hb
  obtain ⟨t1, ht1⟩ := hsp
  obtain ⟨t2, ht2⟩ := hb
  cases hpd : p.data with
  | nil =>
    rw [hpd] at hp
    cases hp
  | cons c1 ps =>
    cases hqd : q.data with
    | nil =>
      rw [hqd] at hq
      cases hq
    | cons c2 qs =>
      rw [hpd] at hp ht1
      rw [hqd] at hq ht2
      rw [List.head?_cons, Option.some.injEq] at hp hq
      rw [← ht1, List.cons_append] at ht2
      have hcc : c2 = c1 := by
        have h3 := congrArg List.head? ht2
        simpa using h3
      apply hne
      rw [← hp, ← hq, hcc]

/-- C9: a markdown image reference whose target begins with http://,
https:// or data: leaves the processing state untouched: no asset, no
warning, no rewrite; consequently a document without wikilink matches
whose markdown matches are all external comes back verbatim with zero
assets and zero warnings. -/
theorem c9_external_targets_pass_through (resolve : String → Option Assets.Dest)
    (decodeURI : String → String) (allFiles : List Assets.VFile)
    (targetDirectory : String) (st : Assets.PState) (m : Assets.MdMatch)
    (content : String) :
    ((strStartsWith m.linkPath "http://" = true ∨ strStartsWith m.linkPath "https://" = true
        ∨ strStartsWith m.linkPath "data:" = true) →
      Assets.mdStep resolve decodeURI allFiles targetDirectory st m = st)
    ∧ (Assets.findWikiMatches content.data = [] →
       (∀ m2 ∈ Assets.findMdMatches content.data,
         strStartsWith m2.linkPath "http://" = true
           ∨ strStartsWith m2.linkPath "https://" = true
           ∨ strStartsWith m2.linkPath "data:" = true) →
       Assets.processMarkdownAssets resolve decodeURI allFiles content targetDirectory
         = ⟨content, [], []⟩) := by
  have hstep : ∀ (st2 : Assets.PState) (m2 : Assets.MdMatch),
      (strStartsWith m2.linkPath "http://" = true
        ∨ strStartsWith m2.linkPath "https://" = true
        ∨ strStartsWith m2.linkPath "data:" = true) →
      Assets.mdStep resolve decodeURI allFiles targetDirectory st2 m2 = st2 := by
    intro st2 m2 h2
    have hz : ¬ m2.linkPath = "" := by
      intro hz
      rcases h2 with h2 | h2 | h2 <;> (rw [hz] at h2; exact absurd h2 (by decide))
    rcases h2 with h2 | h2 | h2
    · have hor : (strStartsWith m2.linkPath "http://"
          || strStartsWith m2.linkPath "https://") = true := by
        rw [h2]
        rfl
      simp only [Assets.mdStep, if_neg hz, hor, if_true]
    · have hor : (strStartsWith m2.linkPath "http://"
          || strStartsWith m2.linkPath "https://") = true := by
        rw [h2, Bool.or_true]
      simp only [Assets.mdStep, if_neg hz, hor, if_true]
    · have hh1 : strStartsWith m2.linkPath "http://" = false :=
        strStartsWith_head_conflict m2.linkPath "data:" "http://" 'd' 'h' rfl rfl
          (by decide) h2
      have hh2 : strStartsWith m2.linkPath "https://" = false :=
        strStartsWith_head_conflict m2.linkPath "data:" "https://" 'd' 'h' rfl rfl
          (by decide) h2
      have hor : (strStartsWith m2.linkPath "http://"
          || strStartsWith m2.linkPath "https://") = false := by
        rw [hh1, hh2, Bool.or_false]
      simp only [Assets.mdStep, if_neg hz, hor, Bool.false_eq_true, if_false, h2, if_true]
  refine ⟨fun h2 => hstep st m h2, ?_⟩
  intro hwiki hmd
  unfold Assets.processMarkdownAssets Assets.processFull Assets.mdPass Assets.wikiPass
  rw [hwiki]
  simp only [List.foldl_nil]
  rw [foldl_fixed _ _ (fun m2 hm2 a => hstep a m2 (hmd m2 hm2))]
  rfl

theorem c9_external_targets_pass_through_witness :
    Assets.processMarkdownAssets resolveDemo id []
      "see ![e](https://h/a.png) and ![i](data:image/png;base64,AAA)" "dir"
      = ⟨"see ![e](https://h/a.png) and ![i](data:image/png;base64,AAA)", [], []⟩ :=
  (c9_external_targets_pass_through resolveDemo id [] "dir" (Assets.initPState "")
    ⟨"", "", ""⟩ "see ![e](https://h/a.png) and ![i](data:image/png;base64,AAA)").2
    (by decide) (by decide)
